import Mathlib

/-!
# A verification development for the dag-pb codec

Shallow embedding of `src/index.js` (comparator, normalizer `prepare`, validator
`validate`, and the `encode`/`decode` wrappers) together with models of the two
collaborators the repository imports but whose sources are not present
(`pb-encode.js` / `pb-decode.js`, and the external `multiformats/cid` library).
Those models carry doc comments starting with `Modelled from the spec:`.

Conventions of the embedding:
* a JS `Uint8Array` is a `List Nat` of byte values;
* a JS number is a `Rat` (the claims only exercise finite numbers);
* dynamically-typed record fields are `Option` fields, with JS truthiness made
  explicit where the source branches on it;
* the closed-schema reflection check (`hasOnlyProperties`) is modelled by an
  `extra : Bool` flag on records meaning "the object carries a property outside
  the recognized set";
* thrown `TypeError`s become `Except String` with the source's messages.
-/

namespace DagPB

/-- Byte strings (JS `Uint8Array`) as lists of byte values. -/
abbrev Bytes := List Nat

/-! ## UTF-8 (model of JS `TextEncoder` / text fields of the wire format) -/

/-- UTF-8 encoding of a single Unicode code point (div/mod formulation). -/
def utf8EncodeCp (n : Nat) : Bytes :=
  if n < 0x80 then [n]
  else if n < 0x800 then [0xC0 + n / 64, 0x80 + n % 64]
  else if n < 0x10000 then [0xE0 + n / 4096, 0x80 + n / 64 % 64, 0x80 + n % 64]
  else [0xF0 + n / 262144, 0x80 + n / 4096 % 64, 0x80 + n / 64 % 64, 0x80 + n % 64]

/-- Model of `textEncoder.encode`: UTF-8 bytes of a string. -/
def utf8Encode (s : String) : Bytes :=
  (s.data.map (fun c => utf8EncodeCp c.toNat)).flatten

/-- Is a byte a UTF-8 continuation byte? -/
def isCont (b : Nat) : Bool := 0x80 ≤ b && b < 0xC0

/-- Decode one multi-byte UTF-8 sequence headed by `b0 ≥ 0x80`: the code
point and the remaining bytes, or `none` on malformed input (stray or
missing continuation bytes, overlong forms, surrogates, out-of-range). -/
def utf8Step (b0 : Nat) (rest : Bytes) : Option (Nat × Bytes) :=
  if b0 < 0xC0 then none
  else if b0 < 0xE0 then
    match rest with
    | b1 :: rest1 =>
      if isCont b1 then
        let cp := (b0 - 0xC0) * 64 + (b1 - 0x80)
        if 0x80 ≤ cp then some (cp, rest1) else none
      else none
    | [] => none
  else if b0 < 0xF0 then
    match rest with
    | b1 :: b2 :: rest2 =>
      if isCont b1 && isCont b2 then
        let cp := (b0 - 0xE0) * 4096 + (b1 - 0x80) * 64 + (b2 - 0x80)
        if 0x800 ≤ cp ∧ ¬(0xD800 ≤ cp ∧ cp < 0xE000) then some (cp, rest2) else none
      else none
    | _ => none
  else if b0 < 0xF8 then
    match rest with
    | b1 :: b2 :: b3 :: rest3 =>
      if isCont b1 && isCont b2 && isCont b3 then
        let cp := (b0 - 0xF0) * 262144 + (b1 - 0x80) * 4096 + (b2 - 0x80) * 64 + (b3 - 0x80)
        if 0x10000 ≤ cp ∧ cp < 0x110000 then some (cp, rest3) else none
      else none
    | _ => none
  else none

/-- UTF-8 decoding loop over code points, fuel-based (one unit of fuel per
decoded code point; the byte length is always sufficient fuel). -/
def utf8DecodeLoop : Nat → Bytes → Option (List Nat)
  | _, [] => some []
  | 0, _ :: _ => none
  | fuel + 1, b0 :: rest =>
    if b0 < 0x80 then (utf8DecodeLoop fuel rest).map (fun t => b0 :: t)
    else
      match utf8Step b0 rest with
      | some (cp, rest1) => (utf8DecodeLoop fuel rest1).map (fun t => cp :: t)
      | none => none

/-- UTF-8 decoding into a list of code points; `none` on malformed input. -/
def utf8DecodeCps (bs : Bytes) : Option (List Nat) :=
  utf8DecodeLoop bs.length bs

/-- Decode UTF-8 bytes into a string (strict; the wire text fields the
round-trip theorems exercise are always produced by `utf8Encode`). -/
def utf8Decode (bs : Bytes) : Option String :=
  (utf8DecodeCps bs).map (fun cps => String.mk (cps.map Char.ofNat))

/-! ## Content identifiers

Modelled from the spec: §2 describes the content identifier as an external
opaque value type with capabilities parse-from-text, decode-from-bytes,
type-check/cast and binary-serialize; its multihash/multibase internals are
out of scope (§1).  The model fixes only the boundary behavior the claims
need: binary serialization is the identity on the carried bytes, decoding
inverts it, and some byte strings (here: the empty one) fail to decode. -/

/-- Well-formedness of content-identifier bytes in the boundary model. -/
def cidWf (bs : Bytes) : Prop := bs ≠ []

instance (bs : Bytes) : Decidable (cidWf bs) := by
  unfold cidWf; infer_instance

/-- Modelled from the spec: the external content-identifier value type
(`multiformats/cid`, not part of src/). -/
def CID := { bs : Bytes // cidWf bs }

instance : DecidableEq CID := Subtype.instDecidableEq

/-- Binary serialization of a content identifier (`cid.bytes`). -/
def CID.bytes (c : CID) : Bytes := c.val

/-- Modelled from the spec: `CID.decode`, decode-from-bytes; fails exactly on
byte strings that are not well-formed. -/
def CID.decode (bs : Bytes) : Option CID :=
  if h : cidWf bs then some ⟨bs, h⟩ else none

/-- Modelled from the spec: `CID.parse`, parse-from-text; multibase details
are out of scope, so the model parses via the text's UTF-8 bytes. -/
def CID.parse (s : String) : Option CID := CID.decode (utf8Encode s)

/-! ## Data model (`src/index.js` typedefs) -/

/-- The value found in a link's `Hash` slot before validation: a realized
CID, raw bytes, or a text string (the three forms `asLink` discriminates). -/
inductive HashVal
  | cid (c : CID)
  | bytes (bs : Bytes)
  | str (s : String)
deriving DecidableEq

/-- JS truthiness of a `Hash` slot (`if (link.Hash)`): absent and the empty
string are falsy; objects (CIDs, byte arrays) are always truthy. -/
def truthyHash : Option HashVal → Bool
  | none => false
  | some (.cid _) => true
  | some (.bytes _) => true
  | some (.str s) => !(s = "")

/-- Model of `CID.asCID(v)` / the `v.asCID === v` check: the identity on
realized CIDs, `none` on anything else. -/
def HashVal.asCID : HashVal → Option CID
  | .cid c => some c
  | _ => none

/-- In-memory link record (`PBLink`): the three recognized fields plus the
`extra` flag modelling properties outside `pbLinkProperties`. -/
structure PBLink where
  Hash : Option HashVal
  Name : Option String
  Tsize : Option Rat
  extra : Bool
deriving DecidableEq

/-- In-memory node record (`PBNode`): `Data`/`Links` plus the `extra` flag
modelling properties outside `pbNodeProperties`. -/
structure PBNode where
  Data : Option Bytes
  Links : List PBLink
  extra : Bool
deriving DecidableEq

/-! ## The canonical comparator (`linkComparator`) -/

/-- The byte buffer compared for a link name: `a.Name ? textEncoder.encode(a.Name) : []`
(an absent or empty — falsy — name yields the empty buffer). -/
def nameBuf : Option String → Bytes
  | some s => if s = "" then [] else utf8Encode s
  | none => []

/-- The comparator's scan loop: the first position where the two buffers hold
different bytes, within the shared prefix. -/
def scanDiff : Bytes → Bytes → Option (Nat × Nat)
  | a :: as, b :: bs => if a ≠ b then some (a, b) else scanDiff as bs
  | _, _ => none

/-- The comparator's final expression `x < y ? -1 : y < x ? 1 : 0`. -/
def cmpSign (x y : Nat) : Int :=
  if x < y then -1 else if y < x then 1 else 0

/-- `linkComparator` from `src/index.js`: identical links compare equal;
otherwise compare the first differing bytes of the UTF-8 name buffers, or the
buffer lengths when no byte differs within the shared prefix. -/
def linkComparator (a b : PBLink) : Int :=
  if a = b then 0
  else
    let abuf := nameBuf a.Name
    let bbuf := nameBuf b.Name
    match scanDiff abuf bbuf with
    | some p => cmpSign p.1 p.2
    | none => cmpSign abuf.length bbuf.length

/-- Byte-wise lexicographic comparison of byte strings, written after the
spec's description (§4.1): first differing byte decides; a strict prefix
sorts first; equal strings compare equal.  Used to state the refinement
claim about `linkComparator`. -/
def lexCompare : Bytes → Bytes → Int
  | [], [] => 0
  | [], _ :: _ => -1
  | _ :: _, [] => 1
  | x :: xs, y :: ys => if x < y then -1 else if y < x then 1 else lexCompare xs ys

/-- The non-strict order induced by the comparator, used to model
`Links.sort(linkComparator)`. -/
def linkLE (a b : PBLink) : Prop := linkComparator a b ≤ 0

instance : DecidableRel linkLE := by
  unfold linkLE; infer_instance

/-! ## Wire codec

Modelled from the spec: `pb-encode.js` / `pb-decode.js` are imported by
`src/index.js` but their sources are not under src/.  The model follows
§4.4/§6: a Node message carries repeated embedded Link messages on field 2
and an optional Data byte field on field 1, serialized Links-then-Data; a
Link message carries optional Hash bytes (field 1), optional Name text
(field 2) and an optional Tsize unsigned-varint (field 3), in ascending
field order; length-delimited framing (wire type 2) for bytes/text/messages
and varint framing (wire type 0) for integers; absent optional fields are
not emitted; unknown fields are skipped on decode. -/

/-- Raw wire-level link record, as produced by the protobuf layer (`PBLink`
in the wire schema): `Hash` is still plain bytes, `Tsize` a plain number. -/
structure RawPBLink where
  Hash : Option Bytes
  Name : Option String
  Tsize : Option Rat
deriving DecidableEq

/-- Raw wire-level node record, as produced by the protobuf layer. -/
structure RawPBNode where
  Data : Option Bytes
  Links : List RawPBLink
deriving DecidableEq

/-- Unsigned LEB128 varint encoding, fuel-based so that it reduces on
concrete inputs (the fuel `n + 1` always suffices since `n / 128 < n`). -/
def varintEncodeAux : Nat → Nat → Bytes
  | 0, n => [n % 0x80]
  | fuel + 1, n => if n < 0x80 then [n] else (0x80 + n % 0x80) :: varintEncodeAux fuel (n / 0x80)

/-- Unsigned varint encoding of a natural number. -/
def varintEncode (n : Nat) : Bytes := varintEncodeAux (n + 1) n

/-- Unsigned varint decoding: the decoded value and the remaining bytes. -/
def varintDecode : Bytes → Option (Nat × Bytes)
  | [] => none
  | b :: rest =>
    if b < 0x80 then some (b, rest)
    else
      match varintDecode rest with
      | some (v, rest1) => some ((b - 0x80) + v * 0x80, rest1)
      | none => none

/-- A length-delimited field (wire type 2): tag, payload length, payload. -/
def fieldLD (fieldNum : Nat) (payload : Bytes) : Bytes :=
  varintEncode (fieldNum * 8 + 2) ++ varintEncode payload.length ++ payload

/-- A varint field (wire type 0): tag, value. -/
def fieldVarint (fieldNum : Nat) (n : Nat) : Bytes :=
  varintEncode (fieldNum * 8) ++ varintEncode n

/-- The Hash section of a Link message: field 1, length-delimited. -/
def encodeHashPart : Option Bytes → Bytes
  | some bs => fieldLD 1 bs
  | none => []

/-- The Name section of a Link message: field 2, length-delimited UTF-8. -/
def encodeNamePart : Option String → Bytes
  | some s => fieldLD 2 (utf8Encode s)
  | none => []

/-- The Tsize section of a Link message: field 3, unsigned varint (§4.4);
a negative or fractional number has no wire representation. -/
def encodeTsizePart : Option Rat → Option Bytes
  | some q => if q.den = 1 ∧ 0 ≤ q.num then some (fieldVarint 3 q.num.toNat) else none
  | none => some []

/-- Modelled from the spec: serialization of one Link message — Hash, Name,
Tsize sections in ascending field order; encoding fails exactly when the
Tsize section does. -/
def encodeLink (l : RawPBLink) : Option Bytes :=
  (encodeTsizePart l.Tsize).map
    (fun t => encodeHashPart l.Hash ++ encodeNamePart l.Name ++ t)

/-- Serialize every link, framing each as an embedded message on field 2. -/
def encodeLinks : List RawPBLink → Option Bytes
  | [] => some []
  | l :: rest => do
    let lp ← encodeLink l
    let rp ← encodeLinks rest
    return fieldLD 2 lp ++ rp

/-- Modelled from the spec: `encodeNode` of `pb-encode.js` — Links then
optional Data (§4.4). -/
def encodeNode (raw : RawPBNode) : Option Bytes := do
  let linksPart ← encodeLinks raw.Links
  let dataPart := match raw.Data with
    | some bs => fieldLD 1 bs
    | none => []
  return linksPart ++ dataPart

/-- Parse loop for a Link message: field 1 (bytes) is the Hash, field 2
(text) the Name, field 3 (varint) the Tsize; unknown fields are skipped.
One unit of fuel is consumed per field. -/
def decodeLinkLoop : Nat → Bytes → RawPBLink → Option RawPBLink
  | _, [], acc => some acc
  | 0, _ :: _, _ => none
  | fuel + 1, bytes, acc =>
    match varintDecode bytes with
    | none => none
    | some (tag, rest) =>
      let wt := tag % 8
      let fn := tag / 8
      if wt = 2 then
        match varintDecode rest with
        | none => none
        | some (len, rest1) =>
          if len ≤ rest1.length then
            let payload := rest1.take len
            let rest2 := rest1.drop len
            if fn = 1 then decodeLinkLoop fuel rest2 { acc with Hash := some payload }
            else if fn = 2 then
              match utf8Decode payload with
              | none => none
              | some s => decodeLinkLoop fuel rest2 { acc with Name := some s }
            else decodeLinkLoop fuel rest2 acc
          else none
      else if wt = 0 then
        match varintDecode rest with
        | none => none
        | some (v, rest1) =>
          if fn = 3 then decodeLinkLoop fuel rest1 { acc with Tsize := some (v : Rat) }
          else decodeLinkLoop fuel rest1 acc
      else none

/-- Parse a Link message payload. -/
def decodeLink (bytes : Bytes) : Option RawPBLink :=
  decodeLinkLoop (bytes.length + 3) bytes ⟨none, none, none⟩

/-- Parse loop for the Node message: field 1 (bytes) is the Data, field 2
(embedded message) appends a Link; unknown fields are skipped. -/
def decodeNodeLoop : Nat → Bytes → RawPBNode → Option RawPBNode
  | _, [], acc => some acc
  | 0, _ :: _, _ => none
  | fuel + 1, bytes, acc =>
    match varintDecode bytes with
    | none => none
    | some (tag, rest) =>
      let wt := tag % 8
      let fn := tag / 8
      if wt = 2 then
        match varintDecode rest with
        | none => none
        | some (len, rest1) =>
          if len ≤ rest1.length then
            let payload := rest1.take len
            let rest2 := rest1.drop len
            if fn = 1 then decodeNodeLoop fuel rest2 { acc with Data := some payload }
            else if fn = 2 then
              match decodeLink payload with
              | none => none
              | some l => decodeNodeLoop fuel rest2 { acc with Links := acc.Links ++ [l] }
            else decodeNodeLoop fuel rest2 acc
          else none
      else if wt = 0 then
        match varintDecode rest with
        | none => none
        | some (_, rest1) => decodeNodeLoop fuel rest1 acc
      else none

/-- Modelled from the spec: `decodeNode` of `pb-decode.js` — parse the wire
message into the raw record (a missing Links section yields the empty list). -/
def decodeNode (bytes : Bytes) : Option RawPBNode :=
  decodeNodeLoop (bytes.length + 3) bytes ⟨none, []⟩

/-! ## The four operations of `src/index.js` -/

/-- The per-link shape checks of `validate`, in source order: closed schema,
Hash present (truthy), Hash a realized CID, Tsize an integer (`Tsize % 1`).
The typed embedding already guarantees `Name` absent-or-string and `Tsize`
absent-or-number. -/
def checkLink (l : PBLink) : Except String Unit :=
  if l.extra then .error "Invalid DAG-PB form (extraneous properties on link object)"
  else if !truthyHash l.Hash then .error "Invalid DAG-PB form (link must have a Hash)"
  else if (l.Hash.bind HashVal.asCID).isNone then
    .error "Invalid DAG-PB form (link Hash must be a CID)"
  else
    match l.Tsize with
    | some q =>
      if q.den ≠ 1 then .error "Invalid DAG-PB form (link Tsize must be an integer)"
      else .ok ()
    | none => .ok ()

/-- The canonical-order check of `validate` against the previous link
(`i > 0 && linkComparator(link, links[i-1]) === -1`). -/
def checkOrder (prev : Option PBLink) (l : PBLink) : Except String Unit :=
  match prev with
  | some p =>
    if linkComparator l p = -1 then
      .error "Invalid DAG-PB form (links must be sorted by Name bytes)"
    else .ok ()
  | none => .ok ()

/-- Per-link validation loop of `validate`, threading the previous link. -/
def validateLinks : Option PBLink → List PBLink → Except String Unit
  | _, [] => .ok ()
  | prev, l :: rest => do
    checkLink l
    checkOrder prev l
    validateLinks (some l) rest

/-- `validate` from `src/index.js`.  The typed embedding already guarantees
that the node is an object, `Data` absent-or-bytes, `Links` an array, link
`Name`s absent-or-string and link `Tsize`s absent-or-number, so the
corresponding shape checks cannot fire; the remaining checks are modelled
in source order. -/
def validate (node : PBNode) : Except String Unit :=
  if node.extra then .error "Invalid DAG-PB form (extraneous properties)"
  else validateLinks none node.Links

/-- The value found in a `Data` slot handed to `prepare`: text or bytes. -/
inductive PrepDataVal
  | dstr (s : String)
  | dbytes (bs : Bytes)
deriving DecidableEq

/-- JS truthiness of a `Data` slot (`if (node.Data)`): the empty string is
falsy, a byte array (any length, object) is truthy. -/
def truthyData : Option PrepDataVal → Bool
  | none => false
  | some (.dstr s) => !(s = "")
  | some (.dbytes _) => true

/-- A loosely-typed input link as accepted by `prepare`/`asLink`. -/
structure PrepLink where
  Hash : Option HashVal
  Name : Option String
  Tsize : Option Rat
deriving DecidableEq

/-- A loosely-typed input record as accepted by `prepare`. -/
structure PrepObj where
  Data : Option PrepDataVal
  Links : Option (List PrepLink)
deriving DecidableEq

/-- The input forms `prepare` discriminates: a byte array, a string, a
record, or an array (rejected). -/
inductive PrepInput
  | bytes (bs : Bytes)
  | str (s : String)
  | obj (o : PrepObj)
  | arr
deriving DecidableEq

/-- The `Hash` realization of `asLink`: cast a truthy CID, else parse text
or decode bytes; `none` when the slot is falsy or realization fails. -/
def asLinkCID (h : Option HashVal) : Option CID :=
  if truthyHash h then
    match h with
    | some v =>
      match v.asCID with
      | some c => some c
      | none =>
        match v with
        | .str s => CID.parse s
        | .bytes bs => CID.decode bs
        | .cid c => some c
    | none => none
  else none

/-- `asLink` from `src/index.js`: realize the `Hash` (failure to end up with
a CID is a form error), keep `Name` if a string and `Tsize` if a number. -/
def asLink (link : PrepLink) : Except String PBLink :=
  match asLinkCID link.Hash with
  | none => .error "Invalid DAG-PB form"
  | some c =>
    .ok { Hash := some (.cid c), Name := link.Name, Tsize := link.Tsize, extra := false }

/-- `Array.prototype.map(asLink)` with the first thrown error propagated. -/
def mapAsLink : List PrepLink → Except String (List PBLink)
  | [] => .ok []
  | l :: rest => do
    let pl ← asLink l
    let pls ← mapAsLink rest
    return pl :: pls

/-- The `Data` normalization of `prepare`: keep a truthy `Data` (UTF-8
encoding text), drop anything else. -/
def prepareData (d : Option PrepDataVal) : Option Bytes :=
  if truthyData d then
    match d with
    | some (.dstr s) => some (utf8Encode s)
    | some (.dbytes bs) => some bs
    | none => none
  else none

/-- The `Links` normalization of `prepare`: a present non-empty array is
mapped through `asLink` and sorted with the comparator; anything else
normalizes to `[]`.  The in-place `.sort(linkComparator)` is modelled by
the stable `List.insertionSort` over `linkLE`. -/
def prepareLinks (o : Option (List PrepLink)) : Except String (List PBLink) :=
  match o with
  | some ls =>
    if ls.length ≠ 0 then do
      let mapped ← mapAsLink ls
      pure (mapped.insertionSort linkLE)
    else pure []
  | none => pure []

/-- `prepare` from `src/index.js`: shorthand byte/string inputs become
data-only nodes (the string is UTF-8 encoded at the shorthand step, so the
later truthiness check sees a byte array); arrays are rejected; then `Data`
and `Links` are normalized. -/
def prepare (input : PrepInput) : Except String PBNode := do
  let node : PrepObj ←
    match input with
    | .bytes bs => pure { Data := some (.dbytes bs), Links := some [] }
    | .str s => pure { Data := some (.dbytes (utf8Encode s)), Links := some [] }
    | .obj o => pure o
    | .arr => .error "Invalid DAG-PB form"
  let links ← prepareLinks node.Links
  return { Data := prepareData node.Data, Links := links, extra := false }

/-- The per-link stripping in `encode`: `Hash` becomes `cid.bytes` (a
non-CID `Hash` value has no `.bytes` property and yields an absent field —
unreachable after validation); `Name` and `Tsize` are carried if present. -/
def rawLinkOf (l : PBLink) : RawPBLink :=
  { Hash :=
      match l.Hash with
      | some (.cid c) => some c.bytes
      | _ => none,
    Name := l.Name,
    Tsize := l.Tsize }

/-- The wire-level record `encode` hands to the serializer. -/
def rawNodeOf (node : PBNode) : RawPBNode :=
  { Data := node.Data, Links := node.Links.map rawLinkOf }

/-- `encode` from `src/index.js`: validate, strip links down to wire form,
then serialize.  The only wire-level failure in the model is a Tsize with
no unsigned-varint representation. -/
def encode (node : PBNode) : Except String Bytes := do
  validate node
  match encodeNode (rawNodeOf node) with
  | some bs => .ok bs
  | none => .error "Tsize cannot be negative"

/-- The per-link reconstruction in `decode`: `CID.decode` the Hash bytes (a
missing field or a failed decode is the same error), carry `Name`/`Tsize`
through only if present. -/
def decodeLinkWrap (l : RawPBLink) : Except String PBLink :=
  let hash : Option CID :=
    match l.Hash with
    | some bs => CID.decode bs
    | none => none
  match hash with
  | none => .error "Invalid Hash field found in link, expected CID"
  | some c => .ok { Hash := some (.cid c), Name := l.Name, Tsize := l.Tsize, extra := false }

/-- `pbn.Links.map(...)` of `decode`, first error propagated. -/
def mapDecodeLinks : List RawPBLink → Except String (List PBLink)
  | [] => .ok []
  | l :: rest => do
    let pl ← decodeLinkWrap l
    let pls ← mapDecodeLinks rest
    return pl :: pls

/-- `decode` from `src/index.js`: parse the wire bytes, reconstruct every
link's CID, carry `Data` through only if present. -/
def decode (bytes : Bytes) : Except String PBNode :=
  match decodeNode bytes with
  | none => .error "protobuf decode error"
  | some pbn => do
    let links ← mapDecodeLinks pbn.Links
    .ok { Data := pbn.Data, Links := links, extra := false }

/-- Is an `Except` value a success? -/
def exceptOk : Except String α → Bool
  | .ok _ => true
  | .error _ => false

/-! ## Predicates and concrete inputs used by the statements -/

/-- A link that passes every per-link check of `validate` except possibly
the ordering check: closed schema, realized CID `Hash`, integer `Tsize`. -/
def goodLink (l : PBLink) : Prop :=
  l.extra = false ∧ (∃ c, l.Hash = some (.cid c)) ∧ ∀ q, l.Tsize = some q → q.den = 1

/-- A `prepare` input with no links: shorthand byte/string forms, and records
whose `Links` is absent or the empty list. -/
def noLinksInput : PrepInput → Prop
  | .bytes _ => True
  | .str _ => True
  | .obj o => o.Links = none ∨ o.Links = some []
  | .arr => True

/-- An input link whose `Hash` slot has no link-hash: absent, or raw bytes
that fail to decode as a CID, or text that is empty or fails to parse. -/
def badPrepHash (l : PrepLink) : Prop :=
  l.Hash = none
    ∨ (∃ bs, l.Hash = some (.bytes bs) ∧ CID.decode bs = none)
    ∨ (∃ s, l.Hash = some (.str s) ∧ (s = "" ∨ CID.parse s = none))

/-- A concrete content identifier for witnesses. -/
def cid1 : CID := ⟨[0x01, 0x55], by decide⟩

/-- A link carrying `cid1`, with the given name and size. -/
def plainLink (name : Option String) (t : Option Rat) : PBLink :=
  ⟨some (.cid cid1), name, t, false⟩

/-- Witness node for the round-trip theorem. -/
def nodeRT : PBNode :=
  ⟨some [1, 2], [plainLink (some "") none, plainLink (some "x") (some 7)], false⟩

/-- A validate-passing node with a negative link `Tsize` (for C1). -/
def nodeNegA : PBNode := ⟨none, [plainLink (some "n") (some (-7))], false⟩

/-- A validate-passing node with link `Tsize = -5` (for C6). -/
def nodeNeg5 : PBNode := ⟨none, [plainLink (some "m") (some (-5))], false⟩

/-- Wire bytes of a node with one link whose Hash field holds bytes that do
not decode as a CID (the empty byte string): field 2 message of length 2
containing a field 1 byte string of length 0. -/
def wireBadHash : Bytes := [0x12, 0x02, 0x0A, 0x00]

/-- Wire bytes of a node with one link carrying only a Name field ("a") and
no Hash field at all. -/
def wireNoHash : Bytes := [0x12, 0x03, 0x12, 0x01, 0x61]

/-- A `prepare` input whose links arrive in reverse canonical order. -/
def inpSort : PrepInput :=
  .obj ⟨none, some [⟨some (.cid cid1), some "b", none⟩, ⟨some (.cid cid1), some "a", none⟩]⟩

/-- The node `prepare inpSort` produces (links sorted). -/
def nodeSorted : PBNode :=
  ⟨none, [⟨some (.cid cid1), some "a", none, false⟩, ⟨some (.cid cid1), some "b", none, false⟩],
    false⟩

/-- An input link with a fractional `Tsize` (for C10). -/
def linkFrac : PrepLink := ⟨some (.cid cid1), some "q", some (mkRat 3 2)⟩

/-- The `prepare` input carrying `linkFrac`. -/
def inpFrac : PrepInput := .obj ⟨none, some [linkFrac]⟩

/-- The node `prepare inpFrac` produces. -/
def nodeFrac : PBNode := ⟨none, [⟨some (.cid cid1), some "q", some (mkRat 3 2), false⟩], false⟩

end DagPB

deriving instance DecidableEq for Except

namespace DagPB

/-! ## Comparator lemmas -/

theorem lexCompare_refl (bs : Bytes) : lexCompare bs bs = 0 := by
  induction bs with
  | nil => rfl
  | cons b t ih => simp [lexCompare, ih]

theorem lexCompare_neg (x y : Bytes) : lexCompare x y = -lexCompare y x := by
  induction x generalizing y with
  | nil => cases y <;> rfl
  | cons a as ih =>
    cases y with
    | nil => rfl
    | cons b bs =>
      simp only [lexCompare]
      rcases Nat.lt_trichotomy a b with h | h | h
      · simp [h, Nat.lt_asymm h]
      · subst h
        simp [Nat.lt_irrefl, ih]
      · simp [h, Nat.lt_asymm h]

theorem lexCompare_cases (x y : Bytes) :
    lexCompare x y = -1 ∨ lexCompare x y = 0 ∨ lexCompare x y = 1 := by
  induction x generalizing y with
  | nil => cases y <;> simp [lexCompare]
  | cons a as ih =>
    cases y with
    | nil => simp [lexCompare]
    | cons b bs =>
      simp only [lexCompare]
      split
      · simp
      · split
        · simp
        · exact ih bs

theorem lexCompare_trans_le {x y z : Bytes}
    (h1 : lexCompare x y ≤ 0) (h2 : lexCompare y z ≤ 0) : lexCompare x z ≤ 0 := by
  induction x generalizing y z with
  | nil => cases z <;> simp [lexCompare]
  | cons a as ih =>
    cases y with
    | nil => simp [lexCompare] at h1
    | cons b bs =>
      cases z with
      | nil => simp [lexCompare] at h2
      | cons c cs =>
        simp only [lexCompare] at h1 h2 ⊢
        rcases Nat.lt_trichotomy a b with hab | hab | hab
        · rcases Nat.lt_trichotomy b c with hbc | hbc | hbc
          · have : a < c := Nat.lt_trans hab hbc
            simp [this]
          · subst hbc; simp [hab]
          · simp [hbc, Nat.lt_asymm hbc] at h2
        · subst hab
          rcases Nat.lt_trichotomy a c with hac | hac | hac
          · simp [hac]
          · subst hac
            simp [Nat.lt_irrefl] at h1 h2 ⊢
            exact ih h1 h2
          · simp [hac, Nat.lt_asymm hac] at h2
        · simp [hab, Nat.lt_asymm hab] at h1

theorem scanLex (x y : Bytes) :
    (match scanDiff x y with
     | some p => cmpSign p.1 p.2
     | none => cmpSign x.length y.length) = lexCompare x y := by
  induction x generalizing y with
  | nil =>
    cases y with
    | nil => rfl
    | cons b bs => simp [scanDiff, lexCompare, cmpSign]
  | cons a as ih =>
    cases y with
    | nil => simp [scanDiff, lexCompare, cmpSign]
    | cons b bs =>
      simp only [scanDiff, lexCompare]
      rcases Nat.lt_trichotomy a b with h | h | h
      · have hne : a ≠ b := Nat.ne_of_lt h
        simp [hne, cmpSign, h]
      · subst h
        have ih' := ih bs
        cases hsd : scanDiff as bs with
        | some p => simpa [hsd] using ih'
        | none =>
          rw [hsd] at ih'
          have hsucc : cmpSign (as.length + 1) (bs.length + 1) = cmpSign as.length bs.length := by
            unfold cmpSign
            split_ifs <;> omega
          simpa [hsd, hsucc] using ih'
      · have hne : a ≠ b := (Nat.ne_of_lt h).symm
        simp [hne, cmpSign, h, Nat.lt_asymm h]

theorem linkComparator_eq_lex (a b : PBLink) :
    linkComparator a b = lexCompare (nameBuf a.Name) (nameBuf b.Name) := by
  unfold linkComparator
  by_cases hab : a = b
  · subst hab; simp [lexCompare_refl]
  · simp only [hab, if_false]
    exact scanLex _ _

theorem nameBuf_eq_getD (n : Option String) : nameBuf n = utf8Encode (n.getD "") := by
  cases n with
  | none => rfl
  | some s =>
    by_cases h : s = ""
    · subst h; rfl
    · simp [nameBuf, h]

theorem linkComparator_neg (a b : PBLink) :
    linkComparator a b = -linkComparator b a := by
  rw [linkComparator_eq_lex, linkComparator_eq_lex]
  exact lexCompare_neg _ _

theorem linkComparator_name_eq {a b : PBLink} (h : a.Name.getD "" = b.Name.getD "") :
    linkComparator a b = 0 := by
  rw [linkComparator_eq_lex, nameBuf_eq_getD, nameBuf_eq_getD, h, lexCompare_refl]

theorem linkLE_total (a b : PBLink) : linkLE a b ∨ linkLE b a := by
  unfold linkLE
  rw [linkComparator_neg a b]
  omega

theorem linkLE_trans {a b c : PBLink} (h1 : linkLE a b) (h2 : linkLE b c) : linkLE a c := by
  unfold linkLE at h1 h2 ⊢
  rw [linkComparator_eq_lex] at h1 h2 ⊢
  exact lexCompare_trans_le h1 h2

end DagPB

namespace DagPB

/-! ## Validator lemmas -/

theorem exceptOk_false_unit {e : Except String Unit} :
    exceptOk e = false ↔ e ≠ .ok () := by
  cases e with
  | ok u => cases u; simp [exceptOk]
  | error s => simp [exceptOk]

theorem sortedLinks_chain (ls : List PBLink) :
    List.Chain' (fun p l => linkComparator l p ≠ -1) (ls.insertionSort linkLE) := by
  have hs : List.Sorted linkLE (ls.insertionSort linkLE) :=
    @List.sorted_insertionSort PBLink linkLE _ ⟨linkLE_total⟩ ⟨fun _ _ _ => linkLE_trans⟩ ls
  have hp : List.Pairwise (fun p l => linkComparator l p ≠ -1) (ls.insertionSort linkLE) := by
    refine hs.imp ?_
    intro a b hab
    unfold linkLE at hab
    rw [linkComparator_neg b a]
    omega
  exact hp.chain'

theorem checkLink_ok_iff (l : PBLink) : checkLink l = .ok () ↔ goodLink l := by
  unfold checkLink goodLink
  rcases l with ⟨h, n, t, e⟩
  cases e with
  | true => simp
  | false =>
    simp only [Bool.false_eq_true, if_false]
    cases h with
    | none => simp [truthyHash]
    | some v =>
      cases v with
      | cid c =>
        simp only [truthyHash, Bool.not_true, Bool.false_eq_true, if_false,
          Option.bind, HashVal.asCID, Option.isNone]
        cases t with
        | none => simp
        | some q =>
          by_cases hq : q.den = 1
          · simp [hq]
          · simp [hq]
      | bytes bs => simp [truthyHash, Option.bind, HashVal.asCID, Option.isNone]
      | str s =>
        by_cases hs : s = ""
        · simp [truthyHash, hs]
        · simp [truthyHash, hs, Option.bind, HashVal.asCID, Option.isNone]

theorem validateLinks_ok_iff (ls : List PBLink) : ∀ prev : Option PBLink,
    validateLinks prev ls = .ok () ↔
      (∀ l ∈ ls, checkLink l = .ok ()) ∧
        List.Chain' (fun p l => linkComparator l p ≠ -1) (prev.toList ++ ls) := by
  induction ls with
  | nil =>
    intro prev
    cases prev <;> simp [validateLinks]
  | cons l rest ih =>
    intro prev
    simp only [validateLinks, Bind.bind, Except.bind]
    cases hc : checkLink l with
    | error e =>
      simp only [Except.error.injEq]
      constructor
      · intro h; exact absurd h (by simp)
      · rintro ⟨hall, -⟩
        have := hall l (by simp)
        rw [hc] at this
        exact absurd this (by simp)
    | ok u =>
      cases u
      cases prev with
      | none =>
        simp only [checkOrder]
        rw [ih (some l)]
        constructor
        · rintro ⟨hall, hch⟩
          refine ⟨?_, ?_⟩
          · intro x hx
            rcases List.mem_cons.mp hx with rfl | hx
            · exact hc
            · exact hall x hx
          · simpa using hch
        · rintro ⟨hall, hch⟩
          refine ⟨fun x hx => hall x (List.mem_cons_of_mem _ hx), ?_⟩
          simpa using hch
      | some p =>
        simp only [checkOrder]
        by_cases hord : linkComparator l p = -1
        · simp only [hord, if_true]
          constructor
          · intro h; exact absurd h (by simp)
          · rintro ⟨-, hch⟩
            simp only [Option.toList_some, List.singleton_append, List.chain'_cons] at hch
            exact absurd hord hch.1
        · simp only [hord, if_false]
          rw [ih (some l)]
          simp only [Option.toList_some, List.singleton_append, List.chain'_cons]
          constructor
          · rintro ⟨hall, hch⟩
            refine ⟨?_, hord, hch⟩
            intro x hx
            rcases List.mem_cons.mp hx with rfl | hx
            · exact hc
            · exact hall x hx
          · rintro ⟨hall, -, hch⟩
            exact ⟨fun x hx => hall x (List.mem_cons_of_mem _ hx), hch⟩

theorem validate_ok_iff (node : PBNode) :
    validate node = .ok () ↔
      node.extra = false ∧ (∀ l ∈ node.Links, goodLink l) ∧
        List.Chain' (fun p l => linkComparator l p ≠ -1) node.Links := by
  unfold validate
  cases he : node.extra with
  | true => simp
  | false =>
    simp only [Bool.false_eq_true, if_false, true_and]
    rw [validateLinks_ok_iff]
    simp [checkLink_ok_iff]

theorem encode_validate_error {node : PBNode} {e : String}
    (h : validate node = .error e) : encode node = .error e := by
  unfold encode
  rw [h]
  rfl

end DagPB

namespace DagPB

/-! ## Normalizer lemmas -/

theorem exceptOk_true_iff {α : Type} {e : Except String α} :
    exceptOk e = true ↔ ∃ a, e = .ok a := by
  cases e <;> simp [exceptOk]

theorem asLink_tsize {l : PrepLink} {pl : PBLink} (h : asLink l = .ok pl) :
    pl.Tsize = l.Tsize := by
  unfold asLink at h
  cases hc : asLinkCID l.Hash with
  | none => rw [hc] at h; exact absurd h (by simp)
  | some c =>
    rw [hc] at h
    cases h
    rfl

theorem asLink_bad {l : PrepLink} (h : badPrepHash l) :
    asLink l = .error "Invalid DAG-PB form" := by
  have hc : asLinkCID l.Hash = none := by
    rcases h with h | ⟨bs, hbs, hdec⟩ | ⟨s, hs, hstr⟩
    · rw [h]; rfl
    · rw [hbs]
      simp [asLinkCID, truthyHash, HashVal.asCID, hdec]
    · rw [hs]
      rcases hstr with rfl | hparse
      · rfl
      · by_cases hse : s = ""
        · subst hse; rfl
        · simp [asLinkCID, truthyHash, hse, HashVal.asCID, hparse]
  unfold asLink
  rw [hc]

theorem mapAsLink_mem_ok {ls : List PrepLink} {pls : List PBLink}
    (h : mapAsLink ls = .ok pls) {l : PrepLink} (hmem : l ∈ ls) :
    ∃ pl, asLink l = .ok pl := by
  induction ls generalizing pls with
  | nil => cases hmem
  | cons x rest ih =>
    simp only [mapAsLink, Bind.bind, Except.bind] at h
    cases hx : asLink x with
    | error e => rw [hx] at h; exact absurd h (by simp)
    | ok pl =>
      rw [hx] at h
      rcases List.mem_cons.mp hmem with rfl | hmem'
      · exact ⟨pl, hx⟩
      · cases hrest : mapAsLink rest with
        | error e => rw [hrest] at h; exact absurd h (by simp)
        | ok pls' => exact ih hrest hmem'

theorem prepare_bytes_eq (bs : Bytes) :
    prepare (.bytes bs) = .ok ⟨some bs, [], false⟩ := rfl

theorem prepare_str_eq (s : String) :
    prepare (.str s) = .ok ⟨some (utf8Encode s), [], false⟩ := rfl

theorem prepareLinks_cons (x : PrepLink) (rest : List PrepLink) :
    prepareLinks (some (x :: rest)) =
      (mapAsLink (x :: rest)).bind fun pls => .ok (pls.insertionSort linkLE) := rfl

theorem prepare_obj_eq (o : PrepObj) :
    prepare (.obj o) = (prepareLinks o.Links).bind fun links =>
      .ok { Data := prepareData o.Data, Links := links, extra := false } := rfl

theorem prepare_obj_links {o : PrepObj} {n : PBNode} (h : prepare (.obj o) = .ok n) :
    (o.Links = none → n.Links = [])
    ∧ (∀ ls, o.Links = some ls →
        (ls = [] → n.Links = [])
        ∧ (ls ≠ [] → ∃ pls, mapAsLink ls = .ok pls ∧ n.Links = pls.insertionSort linkLE)) := by
  rw [prepare_obj_eq] at h
  cases hpl : prepareLinks o.Links with
  | error e =>
    rw [hpl] at h
    exact absurd h (by simp [Except.bind])
  | ok links =>
    rw [hpl] at h
    simp only [Except.bind] at h
    cases h
    constructor
    · intro hnone
      have hl : prepareLinks o.Links = .ok [] := by rw [hnone]; rfl
      rw [hpl] at hl
      exact Except.ok.inj hl
    · intro ls hls
      constructor
      · rintro rfl
        have hl : prepareLinks o.Links = .ok [] := by rw [hls]; rfl
        rw [hpl] at hl
        exact Except.ok.inj hl
      · intro hne
        cases ls with
        | nil => exact absurd rfl hne
        | cons x rest =>
          rw [hls, prepareLinks_cons] at hpl
          cases hm : mapAsLink (x :: rest) with
          | error e => rw [hm] at hpl; exact absurd hpl (by simp [Except.bind])
          | ok pls =>
            rw [hm] at hpl
            simp only [Except.bind] at hpl
            exact ⟨pls, rfl, (Except.ok.inj hpl).symm⟩

end DagPB

namespace DagPB

/-! ## Claims settled against the normalizer, validator and comparator -/

/-- C2: for links named "b" and "a", a Node with Links `[lb, la]` fails both
`validate` and `encode`; the reordered pair passes the link-ordering check
(`linkComparator lb la ≠ -1`); and for a node whose links all pass the
per-link checks, `validate` succeeds exactly when no adjacent pair of
`Links` is strictly decreasing under `linkComparator`. -/
theorem c2_canonical_order_enforcement :
    (∀ (la lb : PBLink) (node : PBNode), la.Name = some "a" → lb.Name = some "b" →
        node.Links = [lb, la] →
        exceptOk (validate node) = false ∧ exceptOk (encode node) = false)
    ∧ (∀ la lb : PBLink, la.Name = some "a" → lb.Name = some "b" →
        linkComparator lb la ≠ -1)
    ∧ (∀ node : PBNode, node.extra = false → (∀ l ∈ node.Links, goodLink l) →
        (validate node = .ok () ↔
          List.Chain' (fun p l => linkComparator l p ≠ -1) node.Links)) := by
  refine ⟨?_, ?_, ?_⟩
  · intro la lb node ha hb hlinks
    have hval : validate node ≠ .ok () := by
      intro hok
      have h3 := ((validate_ok_iff node).mp hok).2.2
      rw [hlinks] at h3
      have hpair := (List.chain'_cons.mp h3).1
      apply hpair
      rw [linkComparator_eq_lex, nameBuf_eq_getD, nameBuf_eq_getD, ha, hb]
      decide
    refine ⟨exceptOk_false_unit.mpr hval, ?_⟩
    cases hv : validate node with
    | ok u => cases u; exact absurd hv hval
    | error e => simp [encode_validate_error hv, exceptOk]
  · intro la lb ha hb
    rw [linkComparator_eq_lex, nameBuf_eq_getD, nameBuf_eq_getD, ha, hb]
    decide
  · intro node hex hgood
    rw [validate_ok_iff]
    constructor
    · rintro ⟨-, -, hch⟩; exact hch
    · intro hch; exact ⟨hex, hgood, hch⟩

/-- Witness for C2 at links named "b" and "a" carrying `cid1`. -/
theorem c2_witness :
    exceptOk (validate ⟨none, [plainLink (some "b") none, plainLink (some "a") none], false⟩)
        = false
    ∧ exceptOk (encode ⟨none, [plainLink (some "b") none, plainLink (some "a") none], false⟩)
        = false
    ∧ linkComparator (plainLink (some "b") none) (plainLink (some "a") none) ≠ -1 := by
  obtain ⟨h1, h2, -⟩ := c2_canonical_order_enforcement
  have h := h1 (plainLink (some "a") none) (plainLink (some "b") none)
    ⟨none, [plainLink (some "b") none, plainLink (some "a") none], false⟩ rfl rfl rfl
  exact ⟨h.1, h.2, h2 (plainLink (some "a") none) (plainLink (some "b") none) rfl rfl⟩

/-- C3: `linkComparator` returns -1/0/+1 according to byte-wise lexicographic
order of the UTF-8 encodings of the names (absent name read as ""): it equals
`lexCompare` on the encoded names, always lands in the three-valued range,
compares links with equal (normalized) names — in particular links differing
only in Hash or Tsize — as 0, and sorts "a" before "ab". -/
theorem c3_comparator_spec (a b : PBLink) :
    linkComparator a b = lexCompare (utf8Encode (a.Name.getD "")) (utf8Encode (b.Name.getD ""))
    ∧ (linkComparator a b = -1 ∨ linkComparator a b = 0 ∨ linkComparator a b = 1)
    ∧ (a.Name.getD "" = b.Name.getD "" → linkComparator a b = 0)
    ∧ (a.Name = some "a" → b.Name = some "ab" → linkComparator a b = -1) := by
  have hlex : linkComparator a b
      = lexCompare (utf8Encode (a.Name.getD "")) (utf8Encode (b.Name.getD "")) := by
    rw [linkComparator_eq_lex, nameBuf_eq_getD, nameBuf_eq_getD]
  refine ⟨hlex, ?_, ?_, ?_⟩
  · rw [hlex]; exact lexCompare_cases _ _
  · intro h; rw [hlex, h]; exact lexCompare_refl _
  · intro ha hb; rw [hlex, ha, hb]; decide

/-- Witness for C3: "a" sorts before "ab"; links differing only in Tsize
compare equal. -/
theorem c3_witness :
    linkComparator (plainLink (some "a") none) (plainLink (some "ab") none) = -1
    ∧ linkComparator (plainLink (some "x") (some 1)) (plainLink (some "x") (some 2)) = 0 := by
  exact ⟨(c3_comparator_spec _ _).2.2.2 rfl rfl, (c3_comparator_spec _ _).2.2.1 rfl⟩

/-- C4: evaluation of the code at the claim's inputs.  `prepare` of an empty
byte sequence (and of the empty string, which the shorthand step turns into
an empty byte sequence) returns a node whose `Data` is PRESENT and empty:
the source's `if (node.Data)` is truthy for an empty `Uint8Array`, so the
claimed normalization to an absent `Data` does not happen.  Only the record
form with an empty-string `Data` (falsy) yields an absent `Data`. -/
theorem c4_prepare_empty_data_eval :
    prepare (.bytes []) = .ok ⟨some [], [], false⟩
    ∧ prepare (.str "") = .ok ⟨some [], [], false⟩
    ∧ prepare (.obj ⟨some (.dstr ""), none⟩) = .ok ⟨none, [], false⟩ := by
  exact ⟨rfl, rfl, rfl⟩

/-- C5: `validate` rejects every node one of whose links lacks a realized
CID `Hash` (absent, raw bytes, or text); `prepare` rejects every record one
of whose links has an absent `Hash` or one that fails to parse/decode as a
CID. -/
theorem c5_required_hash :
    (∀ (node : PBNode) (l : PBLink), l ∈ node.Links →
        (∀ c, l.Hash ≠ some (.cid c)) → exceptOk (validate node) = false)
    ∧ (∀ (o : PrepObj) (ls : List PrepLink) (l : PrepLink),
        o.Links = some ls → l ∈ ls → badPrepHash l →
        exceptOk (prepare (.obj o)) = false) := by
  constructor
  · intro node l hmem hnc
    rw [exceptOk_false_unit]
    intro hok
    obtain ⟨-, hgood, -⟩ := (validate_ok_iff node).mp hok
    obtain ⟨-, ⟨c, hc⟩, -⟩ := hgood l hmem
    exact hnc c hc
  · intro o ls l hls hmem hbad
    cases hp : prepare (.obj o) with
    | error e => simp [exceptOk]
    | ok n =>
      exfalso
      have hne : ls ≠ [] := by rintro rfl; cases hmem
      obtain ⟨pls, hm, -⟩ := ((prepare_obj_links hp).2 ls hls).2 hne
      obtain ⟨pl, hpl⟩ := mapAsLink_mem_ok hm hmem
      rw [asLink_bad hbad] at hpl
      exact absurd hpl (by simp)

/-- Witness for C5: a link with no `Hash` fails `validate`; a link whose
`Hash` is undecodable bytes fails `prepare`. -/
theorem c5_witness :
    exceptOk (validate ⟨none, [⟨none, none, none, false⟩], false⟩) = false
    ∧ exceptOk (prepare (.obj ⟨none, some [⟨some (.bytes []), none, none⟩]⟩)) = false := by
  refine ⟨c5_required_hash.1 ⟨none, [⟨none, none, none, false⟩], false⟩
      ⟨none, none, none, false⟩ (List.mem_singleton.mpr rfl) ?_,
    c5_required_hash.2 ⟨none, some [⟨some (.bytes []), none, none⟩]⟩
      [⟨some (.bytes []), none, none⟩] ⟨some (.bytes []), none, none⟩ rfl
      (List.mem_singleton.mpr rfl) ?_⟩
  · intro c h; exact Option.noConfusion h
  · exact Or.inr (Or.inl ⟨[], rfl, by decide⟩)

/-- C7: whenever `prepare` succeeds, the returned `Links` has no adjacent
pair that is strictly decreasing under `linkComparator` (so it passes the
validator's ordering check), and an input with no links (or an empty link
list) yields empty `Links`. -/
theorem c7_prepare_canonical (inp : PrepInput) (n : PBNode) (h : prepare inp = .ok n) :
    List.Chain' (fun p l => linkComparator l p ≠ -1) n.Links
    ∧ (noLinksInput inp → n.Links = []) := by
  cases inp with
  | bytes bs =>
    rw [prepare_bytes_eq] at h
    cases h
    exact ⟨List.chain'_nil, fun _ => rfl⟩
  | str s =>
    rw [prepare_str_eq] at h
    cases h
    exact ⟨List.chain'_nil, fun _ => rfl⟩
  | arr =>
    have harr : prepare .arr = .error "Invalid DAG-PB form" := rfl
    rw [harr] at h
    exact Except.noConfusion h
  | obj o =>
    have hl := prepare_obj_links h
    cases hls : o.Links with
    | none =>
      refine ⟨?_, fun _ => hl.1 hls⟩
      rw [hl.1 hls]
      exact List.chain'_nil
    | some ls =>
      cases ls with
      | nil =>
        have hnil := (hl.2 [] hls).1 rfl
        exact ⟨by rw [hnil]; exact List.chain'_nil, fun _ => hnil⟩
      | cons x rest =>
        obtain ⟨pls, -, hsort⟩ := (hl.2 (x :: rest) hls).2 (by simp)
        refine ⟨by rw [hsort]; exact sortedLinks_chain pls, ?_⟩
        intro hno
        rcases hno with hno | hno
        · rw [hls] at hno; exact Option.noConfusion hno
        · rw [hls] at hno
          exact absurd (Option.some.inj hno) (by simp)

/-- Witness for C7: preparing two reverse-ordered links yields a node whose
links pass the ordering check. -/
theorem c7_witness :
    List.Chain' (fun p l => linkComparator l p ≠ -1) nodeSorted.Links := by
  exact (c7_prepare_canonical inpSort nodeSorted (by decide)).1

/-- C10: `asLink` (hence `prepare`) keeps any numeric `Tsize` unchanged,
including fractional ones; on the concrete fractional input `prepare`
succeeds while `validate` rejects the resulting node, so `prepare`'s output
is not guaranteed to be encodable. -/
theorem c10_prepare_not_validated :
    (∀ (l : PrepLink) (pl : PBLink), asLink l = .ok pl → pl.Tsize = l.Tsize)
    ∧ prepare inpFrac = .ok nodeFrac
    ∧ validate nodeFrac = .error "Invalid DAG-PB form (link Tsize must be an integer)" := by
  exact ⟨fun l pl h => asLink_tsize h, by decide, by decide⟩

/-- Witness for C10: the fractional-Tsize link is kept as-is by `asLink`. -/
theorem c10_witness :
    asLink linkFrac = .ok ⟨some (.cid cid1), some "q", some (mkRat 3 2), false⟩
    ∧ (⟨some (.cid cid1), some "q", some (mkRat 3 2), false⟩ : PBLink).Tsize
        = linkFrac.Tsize := by
  exact ⟨by decide, c10_prepare_not_validated.1 linkFrac _ (by decide)⟩

end DagPB

namespace DagPB

/-! ## Wire-codec lemmas: varint and UTF-8 round-trips -/

theorem varintDecode_varintEncodeAux : ∀ (fuel n : Nat), n < fuel → ∀ rest : Bytes,
    varintDecode (varintEncodeAux fuel n ++ rest) = some (n, rest) := by
  intro fuel
  induction fuel with
  | zero => intro n h; omega
  | succ f ih =>
    intro n h rest
    unfold varintEncodeAux
    by_cases h128 : n < 0x80
    · rw [if_pos h128]
      simp [varintDecode, h128]
    · rw [if_neg h128]
      simp only [List.cons_append]
      unfold varintDecode
      rw [if_neg (by omega)]
      have hlt : n / 0x80 < f := by
        have := Nat.div_lt_self (by omega : 0 < n) (by omega : (1 : Nat) < 0x80)
        omega
      rw [ih (n / 0x80) hlt rest]
      show some (0x80 + n % 0x80 - 0x80 + n / 0x80 * 0x80, rest) = some (n, rest)
      have heq : 0x80 + n % 0x80 - 0x80 + n / 0x80 * 0x80 = n := by omega
      rw [heq]

theorem varintDecode_encode (n : Nat) (rest : Bytes) :
    varintDecode (varintEncode n ++ rest) = some (n, rest) :=
  varintDecode_varintEncodeAux (n + 1) n (by omega) rest

theorem varintEncode_length_pos (n : Nat) : 1 ≤ (varintEncode n).length := by
  unfold varintEncode varintEncodeAux
  split_ifs <;> simp

theorem char_bounds (c : Char) :
    c.toNat < 0x110000 ∧ ¬(0xD800 ≤ c.toNat ∧ c.toNat < 0xE000) := by
  have h := c.valid
  have hceq : c.toNat = c.val.toNat := rfl
  rw [hceq]
  rcases h with h | ⟨h1, h2⟩
  · constructor <;> omega
  · constructor <;> omega

theorem utf8Step_two {n : Nat} (h1 : 0x80 ≤ n) (h2 : n < 0x800) (rest : Bytes) :
    utf8Step (0xC0 + n / 64) ((0x80 + n % 64) :: rest) = some (n, rest) := by
  simp only [utf8Step]
  rw [if_neg (by omega), if_pos (by omega)]
  rw [if_pos (show isCont (0x80 + n % 64) = true by
    simp only [isCont, Bool.and_eq_true, decide_eq_true_eq]
    omega)]
  rw [if_pos (by omega : 0x80 ≤ (0xC0 + n / 64 - 0xC0) * 64 + (0x80 + n % 64 - 0x80))]
  have heq : (0xC0 + n / 64 - 0xC0) * 64 + (0x80 + n % 64 - 0x80) = n := by omega
  rw [heq]

theorem utf8Step_three {n : Nat} (h1 : 0x800 ≤ n) (h2 : n < 0x10000)
    (hsur : ¬(0xD800 ≤ n ∧ n < 0xE000)) (rest : Bytes) :
    utf8Step (0xE0 + n / 4096) ((0x80 + n / 64 % 64) :: (0x80 + n % 64) :: rest)
      = some (n, rest) := by
  simp only [utf8Step]
  rw [if_neg (by omega), if_neg (by omega), if_pos (by omega)]
  rw [if_pos (show (isCont (0x80 + n / 64 % 64) && isCont (0x80 + n % 64)) = true by
    simp only [isCont, Bool.and_eq_true, decide_eq_true_eq]
    omega)]
  have heq : (0xE0 + n / 4096 - 0xE0) * 4096 + (0x80 + n / 64 % 64 - 0x80) * 64
      + (0x80 + n % 64 - 0x80) = n := by omega
  rw [heq]
  rw [if_pos (by omega)]

theorem utf8Step_four {n : Nat} (h1 : 0x10000 ≤ n) (h2 : n < 0x110000) (rest : Bytes) :
    utf8Step (0xF0 + n / 262144)
      ((0x80 + n / 4096 % 64) :: (0x80 + n / 64 % 64) :: (0x80 + n % 64) :: rest)
      = some (n, rest) := by
  simp only [utf8Step]
  rw [if_neg (by omega), if_neg (by omega), if_neg (by omega), if_pos (by omega)]
  rw [if_pos (show (isCont (0x80 + n / 4096 % 64) && isCont (0x80 + n / 64 % 64)
      && isCont (0x80 + n % 64)) = true by
    simp only [isCont, Bool.and_eq_true, decide_eq_true_eq]
    omega)]
  have heq : (0xF0 + n / 262144 - 0xF0) * 262144 + (0x80 + n / 4096 % 64 - 0x80) * 4096
      + (0x80 + n / 64 % 64 - 0x80) * 64 + (0x80 + n % 64 - 0x80) = n := by omega
  rw [heq]
  rw [if_pos (by omega)]

theorem utf8Loop_char (c : Char) (f : Nat) (rest : Bytes) :
    utf8DecodeLoop (f + 1) (utf8EncodeCp c.toNat ++ rest)
      = (utf8DecodeLoop f rest).map (fun t => c.toNat :: t) := by
  obtain ⟨hmax, hsur⟩ := char_bounds c
  set n := c.toNat with hn
  by_cases h1 : n < 0x80
  · simp only [utf8EncodeCp, if_pos h1, List.singleton_append]
    simp only [utf8DecodeLoop]
    rw [if_pos h1]
  · by_cases h2 : n < 0x800
    · simp only [utf8EncodeCp, if_neg h1, if_pos h2, List.cons_append, List.singleton_append]
      simp only [utf8DecodeLoop]
      rw [if_neg (by omega), utf8Step_two (by omega) h2]
      simp
    · by_cases h3 : n < 0x10000
      · simp only [utf8EncodeCp, if_neg h1, if_neg h2, if_pos h3, List.cons_append,
          List.singleton_append]
        simp only [utf8DecodeLoop]
        rw [if_neg (by omega), utf8Step_three (by omega) h3 hsur]
        simp
      · simp only [utf8EncodeCp, if_neg h1, if_neg h2, if_neg h3, List.cons_append,
          List.singleton_append]
        simp only [utf8DecodeLoop]
        rw [if_neg (by omega), utf8Step_four (by omega) hmax]
        simp

theorem utf8Loop_chars (cs : List Char) : ∀ (f : Nat) (rest : Bytes),
    utf8DecodeLoop (cs.length + f) ((cs.map (fun c => utf8EncodeCp c.toNat)).flatten ++ rest)
      = (utf8DecodeLoop f rest).map (fun t => cs.map Char.toNat ++ t) := by
  induction cs with
  | nil =>
    intro f rest
    simp
  | cons c cs ih =>
    intro f rest
    simp only [List.map_cons, List.flatten_cons, List.length_cons, List.append_assoc]
    have hfuel : cs.length + 1 + f = (cs.length + f) + 1 := by omega
    rw [hfuel, utf8Loop_char c (cs.length + f), ih f rest]
    simp [Option.map_map]
    rfl

theorem utf8Encode_length_ge (cs : List Char) :
    cs.length ≤ ((cs.map (fun c => utf8EncodeCp c.toNat)).flatten).length := by
  induction cs with
  | nil => simp
  | cons c cs ih =>
    simp only [List.map_cons, List.flatten_cons, List.length_append, List.length_cons]
    have hpos : 1 ≤ (utf8EncodeCp c.toNat).length := by
      unfold utf8EncodeCp
      split_ifs <;> simp
    omega

theorem utf8Decode_encode (s : String) : utf8Decode (utf8Encode s) = some s := by
  unfold utf8Decode utf8DecodeCps utf8Encode
  have hge := utf8Encode_length_ge s.data
  have hfuel : ((s.data.map (fun c => utf8EncodeCp c.toNat)).flatten).length
      = s.data.length + (((s.data.map (fun c => utf8EncodeCp c.toNat)).flatten).length
          - s.data.length) := by omega
  rw [hfuel]
  have happ : (s.data.map (fun c => utf8EncodeCp c.toNat)).flatten
      = (s.data.map (fun c => utf8EncodeCp c.toNat)).flatten ++ [] := by simp
  conv_lhs => rw [happ]
  rw [utf8Loop_chars]
  have hchars : String.mk (s.data.map (Char.ofNat ∘ Char.toNat)) = s := by
    have hid : (Char.ofNat ∘ Char.toNat) = id := by
      funext c
      exact Char.ofNat_toNat c
    rw [hid, List.map_id]
  simp [utf8DecodeLoop, hchars]

end DagPB

namespace DagPB

/-! ## Wire-codec lemmas: link messages -/

theorem decodeLinkLoop_hash (f : Nat) (bs rest : Bytes) (acc : RawPBLink) :
    decodeLinkLoop (f + 1) (fieldLD 1 bs ++ rest) acc
      = decodeLinkLoop f rest { acc with Hash := some bs } := by
  have hvd : ∀ t : Bytes, varintDecode (10 :: t) = some (10, t) := fun t => by
    simp [varintDecode]
  have hle : bs.length ≤ (bs ++ rest).length := by simp
  simp only [fieldLD, show varintEncode (1 * 8 + 2) = [10] from rfl, List.append_assoc,
    List.singleton_append, List.append_eq]
  simp only [decodeLinkLoop, hvd, List.append_eq]
  simp only [varintDecode_encode]
  simp [if_pos hle, List.take_left, List.drop_left]

theorem decodeLinkLoop_name (f : Nat) (s : String) (rest : Bytes) (acc : RawPBLink) :
    decodeLinkLoop (f + 1) (fieldLD 2 (utf8Encode s) ++ rest) acc
      = decodeLinkLoop f rest { acc with Name := some s } := by
  have hvd : ∀ t : Bytes, varintDecode (18 :: t) = some (18, t) := fun t => by
    simp [varintDecode]
  have hle : (utf8Encode s).length ≤ (utf8Encode s ++ rest).length := by simp
  simp only [fieldLD, show varintEncode (2 * 8 + 2) = [18] from rfl, List.append_assoc,
    List.singleton_append, List.append_eq]
  simp only [decodeLinkLoop, hvd, List.append_eq]
  simp only [varintDecode_encode]
  simp [if_pos hle, List.take_left, List.drop_left, utf8Decode_encode]

theorem decodeLinkLoop_tsize (f n : Nat) (rest : Bytes) (acc : RawPBLink) :
    decodeLinkLoop (f + 1) (fieldVarint 3 n ++ rest) acc
      = decodeLinkLoop f rest { acc with Tsize := some (n : Rat) } := by
  have hvd : ∀ t : Bytes, varintDecode (24 :: t) = some (24, t) := fun t => by
    simp [varintDecode]
  simp only [fieldVarint, show varintEncode (3 * 8) = [24] from rfl, List.append_assoc,
    List.singleton_append, List.append_eq]
  simp only [decodeLinkLoop, hvd, List.append_eq]
  simp only [varintDecode_encode]
  simp

theorem decodeLinkLoop_nil (f : Nat) (acc : RawPBLink) :
    decodeLinkLoop f [] acc = some acc := by
  cases f <;> rfl

theorem rat_natCast_toNat {q : Rat} (hden : q.den = 1) (hnn : 0 ≤ q.num) :
    ((q.num.toNat : Nat) : Rat) = q := by
  have h1 : ((q.num.toNat : Nat) : Int) = q.num := Int.toNat_of_nonneg hnn
  have h2 : ((q.num.toNat : Nat) : Rat) = ((q.num : Int) : Rat) := by
    rw [← h1]
    norm_cast
  rw [h2, Rat.coe_int_num_of_den_eq_one hden]

theorem decodeLink_encodeLink {l : RawPBLink} {payload : Bytes}
    (h : encodeLink l = some payload) (f : Nat) :
    decodeLinkLoop (f + 3) payload ⟨none, none, none⟩ = some l := by
  have h3 : f + 3 = f + 2 + 1 := rfl
  have h2 : f + 2 = f + 1 + 1 := rfl
  have h1 : f + 1 = f + 0 + 1 := rfl
  rcases l with ⟨lh, ln, lt⟩
  cases lt with
  | some q =>
    by_cases hq : q.den = 1 ∧ 0 ≤ q.num
    · have hrat : ((q.num.toNat : Nat) : Rat) = q := rat_natCast_toNat hq.1 hq.2
      cases lh with
      | some bs =>
        cases ln with
        | some s =>
          have hp : payload
              = fieldLD 1 bs ++ (fieldLD 2 (utf8Encode s) ++ fieldVarint 3 q.num.toNat) := by
            simp only [encodeLink, encodeHashPart, encodeNamePart, encodeTsizePart,
              if_pos hq, Option.map_some', Option.some.injEq, List.append_assoc] at h
            exact h.symm
          subst hp
          rw [h3, decodeLinkLoop_hash, h2, decodeLinkLoop_name,
            show fieldVarint 3 q.num.toNat = fieldVarint 3 q.num.toNat ++ []
              from (List.append_nil _).symm,
            h1, decodeLinkLoop_tsize, hrat, decodeLinkLoop_nil]
        | none =>
          have hp : payload = fieldLD 1 bs ++ fieldVarint 3 q.num.toNat := by
            simp only [encodeLink, encodeHashPart, encodeNamePart, encodeTsizePart,
              if_pos hq, Option.map_some', Option.some.injEq, List.append_assoc,
              List.nil_append] at h
            exact h.symm
          subst hp
          rw [h3, decodeLinkLoop_hash,
            show fieldVarint 3 q.num.toNat = fieldVarint 3 q.num.toNat ++ []
              from (List.append_nil _).symm,
            h2, decodeLinkLoop_tsize, hrat, decodeLinkLoop_nil]
      | none =>
        cases ln with
        | some s =>
          have hp : payload = fieldLD 2 (utf8Encode s) ++ fieldVarint 3 q.num.toNat := by
            simp only [encodeLink, encodeHashPart, encodeNamePart, encodeTsizePart,
              if_pos hq, Option.map_some', Option.some.injEq, List.append_assoc,
              List.nil_append] at h
            exact h.symm
          subst hp
          rw [h3, decodeLinkLoop_name,
            show fieldVarint 3 q.num.toNat = fieldVarint 3 q.num.toNat ++ []
              from (List.append_nil _).symm,
            h2, decodeLinkLoop_tsize, hrat, decodeLinkLoop_nil]
        | none =>
          have hp : payload = fieldVarint 3 q.num.toNat := by
            simp only [encodeLink, encodeHashPart, encodeNamePart, encodeTsizePart,
              if_pos hq, Option.map_some', Option.some.injEq, List.append_assoc,
              List.nil_append] at h
            exact h.symm
          subst hp
          rw [show fieldVarint 3 q.num.toNat = fieldVarint 3 q.num.toNat ++ []
              from (List.append_nil _).symm,
            h3, decodeLinkLoop_tsize, hrat, decodeLinkLoop_nil]
    · simp only [encodeLink, encodeTsizePart, if_neg hq, Option.map_none'] at h
      exact absurd h (by simp)
  | none =>
    cases lh with
    | some bs =>
      cases ln with
      | some s =>
        have hp : payload = fieldLD 1 bs ++ fieldLD 2 (utf8Encode s) := by
          simp only [encodeLink, encodeHashPart, encodeNamePart, encodeTsizePart,
            Option.map_some', Option.some.injEq, List.append_assoc, List.append_nil] at h
          exact h.symm
        subst hp
        rw [h3, decodeLinkLoop_hash,
          show fieldLD 2 (utf8Encode s) = fieldLD 2 (utf8Encode s) ++ []
            from (List.append_nil _).symm,
          h2, decodeLinkLoop_name, decodeLinkLoop_nil]
      | none =>
        have hp : payload = fieldLD 1 bs := by
          simp only [encodeLink, encodeHashPart, encodeNamePart, encodeTsizePart,
            Option.map_some', Option.some.injEq, List.append_assoc, List.append_nil,
            List.nil_append] at h
          exact h.symm
        subst hp
        rw [show fieldLD 1 bs = fieldLD 1 bs ++ [] from (List.append_nil _).symm,
          h3, decodeLinkLoop_hash, decodeLinkLoop_nil]
    | none =>
      cases ln with
      | some s =>
        have hp : payload = fieldLD 2 (utf8Encode s) := by
          simp only [encodeLink, encodeHashPart, encodeNamePart, encodeTsizePart,
            Option.map_some', Option.some.injEq, List.append_assoc, List.append_nil,
            List.nil_append] at h
          exact h.symm
        subst hp
        rw [show fieldLD 2 (utf8Encode s) = fieldLD 2 (utf8Encode s) ++ []
            from (List.append_nil _).symm,
          h3, decodeLinkLoop_name, decodeLinkLoop_nil]
      | none =>
        have hp : payload = [] := by
          simp only [encodeLink, encodeHashPart, encodeNamePart, encodeTsizePart,
            Option.map_some', Option.some.injEq, List.append_nil, List.nil_append] at h
          exact h.symm
        subst hp
        rw [decodeLinkLoop_nil]

end DagPB

namespace DagPB

/-! ## Wire-codec lemmas: node messages -/

theorem decodeNodeLoop_nil (f : Nat) (acc : RawPBNode) :
    decodeNodeLoop f [] acc = some acc := by
  cases f <;> rfl

theorem decodeNodeLoop_data (f : Nat) (d rest : Bytes) (acc : RawPBNode) :
    decodeNodeLoop (f + 1) (fieldLD 1 d ++ rest) acc
      = decodeNodeLoop f rest { acc with Data := some d } := by
  have hvd : ∀ t : Bytes, varintDecode (10 :: t) = some (10, t) := fun t => by
    simp [varintDecode]
  have hle : d.length ≤ (d ++ rest).length := by simp
  simp only [fieldLD, show varintEncode (1 * 8 + 2) = [10] from rfl, List.append_assoc,
    List.singleton_append, List.append_eq]
  simp only [decodeNodeLoop, hvd, List.append_eq]
  simp only [varintDecode_encode]
  simp [if_pos hle, List.take_left, List.drop_left]

theorem decodeNodeLoop_link (f : Nat) (lp rest : Bytes) {l : RawPBLink}
    (hl : decodeLink lp = some l) (acc : RawPBNode) :
    decodeNodeLoop (f + 1) (fieldLD 2 lp ++ rest) acc
      = decodeNodeLoop f rest { acc with Links := acc.Links ++ [l] } := by
  have hvd : ∀ t : Bytes, varintDecode (18 :: t) = some (18, t) := fun t => by
    simp [varintDecode]
  have hle : lp.length ≤ (lp ++ rest).length := by simp
  simp only [fieldLD, show varintEncode (2 * 8 + 2) = [18] from rfl, List.append_assoc,
    List.singleton_append, List.append_eq]
  simp only [decodeNodeLoop, hvd, List.append_eq]
  simp only [varintDecode_encode]
  simp [if_pos hle, List.take_left, List.drop_left, hl]

theorem fieldLD_length_ge (fn : Nat) (payload : Bytes) :
    2 ≤ (fieldLD fn payload).length := by
  have h1 := varintEncode_length_pos (fn * 8 + 2)
  have h2 := varintEncode_length_pos payload.length
  simp only [fieldLD, List.length_append]
  omega

theorem encodeLinks_length {ls : List RawPBLink} {bs : Bytes}
    (h : encodeLinks ls = some bs) : ls.length ≤ bs.length := by
  induction ls generalizing bs with
  | nil =>
    simp only [encodeLinks, Option.some.injEq] at h
    rw [← h]
    simp
  | cons l rest ih =>
    simp only [encodeLinks, Bind.bind, Option.bind, pure] at h
    cases hel : encodeLink l with
    | none => rw [hel] at h; exact absurd h (by simp)
    | some lp =>
      rw [hel] at h
      cases her : encodeLinks rest with
      | none => rw [her] at h; exact absurd h (by simp)
      | some rp =>
        rw [her] at h
        simp only [Option.some.injEq] at h
        rw [← h]
        have hf := fieldLD_length_ge 2 lp
        have hr := ih her
        simp only [List.length_append, List.length_cons]
        omega

theorem decodeNodeLoop_links {ls : List RawPBLink} {bs : Bytes}
    (h : encodeLinks ls = some bs) :
    ∀ (f : Nat) (rest : Bytes) (acc : RawPBNode),
    decodeNodeLoop (ls.length + f) (bs ++ rest) acc
      = decodeNodeLoop f rest { acc with Links := acc.Links ++ ls } := by
  induction ls generalizing bs with
  | nil =>
    intro f rest acc
    simp only [encodeLinks, Option.some.injEq] at h
    rw [← h]
    simp
  | cons l rest' ih =>
    intro f rest acc
    simp only [encodeLinks, Bind.bind, Option.bind, pure] at h
    cases hel : encodeLink l with
    | none => rw [hel] at h; exact absurd h (by simp)
    | some lp =>
      rw [hel] at h
      cases her : encodeLinks rest' with
      | none => rw [her] at h; exact absurd h (by simp)
      | some rp =>
        rw [her] at h
        simp only [Option.some.injEq] at h
        rw [← h]
        have hdl : decodeLink lp = some l := decodeLink_encodeLink hel lp.length
        have hfuel : (l :: rest').length + f = (rest'.length + f) + 1 := by
          simp only [List.length_cons]
          omega
        rw [hfuel, List.append_assoc, decodeNodeLoop_link _ _ _ hdl, ih her]
        simp

theorem decodeNode_encodeNode {raw : RawPBNode} {bs : Bytes}
    (h : encodeNode raw = some bs) : decodeNode bs = some raw := by
  rcases raw with ⟨rd, rls⟩
  simp only [encodeNode, Bind.bind, Option.bind, pure] at h
  cases hlp : encodeLinks rls with
  | none => rw [hlp] at h; exact absurd h (by simp)
  | some linksPart =>
    rw [hlp] at h
    simp only [Option.some.injEq] at h
    have hll : rls.length ≤ linksPart.length := encodeLinks_length hlp
    unfold decodeNode
    cases rd with
    | none =>
      have hb : bs = linksPart ++ [] := by rw [← h]
      subst hb
      have hfuel : (linksPart ++ ([] : Bytes)).length + 3
          = rls.length + ((linksPart ++ ([] : Bytes)).length + 3 - rls.length) := by
        simp only [List.length_append, List.length_nil]
        omega
      rw [hfuel, decodeNodeLoop_links hlp, decodeNodeLoop_nil]
      simp
    | some d =>
      have hb : bs = linksPart ++ fieldLD 1 d := by rw [← h]
      subst hb
      have hfuel : (linksPart ++ fieldLD 1 d).length + 3
          = rls.length + (((linksPart ++ fieldLD 1 d).length + 3 - rls.length - 1) + 1) := by
        simp only [List.length_append]
        omega
      rw [hfuel, decodeNodeLoop_links hlp,
        show fieldLD 1 d = fieldLD 1 d ++ [] from (List.append_nil _).symm,
        decodeNodeLoop_data, decodeNodeLoop_nil]
      simp

end DagPB

namespace DagPB

/-! ## Encode/decode wrapper lemmas -/

theorem CID.decode_bytes (c : CID) : CID.decode c.bytes = some c := by
  rcases c with ⟨bs, hw⟩
  unfold CID.decode CID.bytes
  rw [dif_pos hw]

theorem encodeLink_rawLinkOf {l : PBLink} (hgood : goodLink l)
    (hts : 0 ≤ l.Tsize.getD 0) : ∃ lp, encodeLink (rawLinkOf l) = some lp := by
  have htsize : (rawLinkOf l).Tsize = l.Tsize := rfl
  unfold encodeLink
  rw [htsize]
  cases ht : l.Tsize with
  | none => exact ⟨_, rfl⟩
  | some q =>
    have hden : q.den = 1 := hgood.2.2 q ht
    have hq : (0 : Rat) ≤ q := by
      rw [ht] at hts
      exact hts
    have hnum : 0 ≤ q.num := Rat.num_nonneg.mpr hq
    rw [show encodeTsizePart (some q) = some (fieldVarint 3 q.num.toNat) from by
      simp [encodeTsizePart, hden, hnum]]
    exact ⟨_, rfl⟩

theorem encodeLinks_all_ok {links : List PBLink}
    (hgood : ∀ l ∈ links, goodLink l) (hts : ∀ l ∈ links, 0 ≤ l.Tsize.getD 0) :
    ∃ bs, encodeLinks (links.map rawLinkOf) = some bs := by
  induction links with
  | nil => exact ⟨[], rfl⟩
  | cons l rest ih =>
    obtain ⟨lp, hlp⟩ := encodeLink_rawLinkOf (hgood l (by simp)) (hts l (by simp))
    obtain ⟨rp, hrp⟩ := ih (fun x hx => hgood x (List.mem_cons_of_mem _ hx))
      (fun x hx => hts x (List.mem_cons_of_mem _ hx))
    refine ⟨fieldLD 2 lp ++ rp, ?_⟩
    simp only [List.map_cons, encodeLinks, Bind.bind, Option.bind, pure, hlp, hrp]

theorem encodeNode_all_ok {node : PBNode}
    (hgood : ∀ l ∈ node.Links, goodLink l) (hts : ∀ l ∈ node.Links, 0 ≤ l.Tsize.getD 0) :
    ∃ bs, encodeNode (rawNodeOf node) = some bs := by
  obtain ⟨lbs, hlbs⟩ := encodeLinks_all_ok hgood hts
  refine ⟨lbs ++ (match node.Data with | some d => fieldLD 1 d | none => []), ?_⟩
  simp only [encodeNode, rawNodeOf, Bind.bind, Option.bind, pure, hlbs]

theorem encode_ok_of {node : PBNode} {bs : Bytes} (hv : validate node = .ok ())
    (henc : encodeNode (rawNodeOf node) = some bs) : encode node = .ok bs := by
  unfold encode
  rw [hv]
  show (match encodeNode (rawNodeOf node) with
    | some bs => Except.ok bs
    | none => Except.error "Tsize cannot be negative") = Except.ok bs
  rw [henc]

theorem decodeLinkWrap_rawLinkOf {l : PBLink} (hgood : goodLink l) :
    decodeLinkWrap (rawLinkOf l) = .ok l := by
  obtain ⟨hex, ⟨c, hc⟩, -⟩ := hgood
  rcases l with ⟨lh, ln, lt, le⟩
  simp only at hc hex
  subst hc hex
  simp only [decodeLinkWrap, rawLinkOf, CID.decode_bytes]

theorem mapDecodeLinks_rawLinkOf {links : List PBLink}
    (hgood : ∀ l ∈ links, goodLink l) :
    mapDecodeLinks (links.map rawLinkOf) = .ok links := by
  induction links with
  | nil => rfl
  | cons l rest ih =>
    simp only [List.map_cons, mapDecodeLinks, Bind.bind, Except.bind,
      decodeLinkWrap_rawLinkOf (hgood l (by simp)),
      ih (fun x hx => hgood x (List.mem_cons_of_mem _ hx))]
    rfl

theorem decode_eq {bs : Bytes} {raw : RawPBNode} (hraw : decodeNode bs = some raw) :
    decode bs = (mapDecodeLinks raw.Links).bind
      (fun links => .ok { Data := raw.Data, Links := links, extra := false }) := by
  unfold decode
  rw [hraw]
  rfl

theorem decode_encode_wire {node : PBNode} {bs : Bytes}
    (hv : validate node = .ok ()) (henc : encodeNode (rawNodeOf node) = some bs) :
    decode bs = .ok node := by
  obtain ⟨hex, hgood, -⟩ := (validate_ok_iff node).mp hv
  have hraw : decodeNode bs = some (rawNodeOf node) := decodeNode_encodeNode henc
  rw [decode_eq hraw]
  have hlinks : (rawNodeOf node).Links = node.Links.map rawLinkOf := rfl
  rw [hlinks, mapDecodeLinks_rawLinkOf hgood]
  show Except.ok { Data := (rawNodeOf node).Data, Links := node.Links, extra := false }
    = Except.ok node
  have hdata : (rawNodeOf node).Data = node.Data := rfl
  rw [hdata]
  rcases node with ⟨nd, nls, ne⟩
  simp only at hex
  subst hex
  rfl

end DagPB

namespace DagPB

/-! ## Error-side lemmas for the wire codec -/

theorem encodeLink_neg {l : PBLink} {q : Rat} (ht : l.Tsize = some q) (hneg : q < 0) :
    encodeLink (rawLinkOf l) = none := by
  have htsize : (rawLinkOf l).Tsize = l.Tsize := rfl
  unfold encodeLink
  rw [htsize, ht]
  have hnum : ¬(0 ≤ q.num) := by
    intro hn
    exact absurd (Rat.num_nonneg.mp hn) (not_le.mpr hneg)
  rw [show encodeTsizePart (some q) = none from by
    simp only [encodeTsizePart]
    rw [if_neg]
    rintro ⟨-, hc⟩
    exact hnum hc]
  rfl

theorem encodeLinks_none_of_mem {rls : List RawPBLink} {rl : RawPBLink}
    (hmem : rl ∈ rls) (hnone : encodeLink rl = none) : encodeLinks rls = none := by
  induction rls with
  | nil => cases hmem
  | cons x rest ih =>
    simp only [encodeLinks, Bind.bind, Option.bind, pure]
    rcases List.mem_cons.mp hmem with rfl | hmem'
    · rw [hnone]
    · cases hx : encodeLink x with
      | none => rfl
      | some lp => rw [ih hmem']

theorem encode_error_neg {node : PBNode} (hv : validate node = .ok ())
    (hnode : encodeNode (rawNodeOf node) = none) :
    encode node = .error "Tsize cannot be negative" := by
  unfold encode
  rw [hv]
  show (match encodeNode (rawNodeOf node) with
    | some bs => Except.ok bs
    | none => Except.error "Tsize cannot be negative") = _
  rw [hnode]

theorem decodeLinkWrap_ok_shape {rl : RawPBLink} {pl : PBLink}
    (h : decodeLinkWrap rl = .ok pl) : ∃ c, pl.Hash = some (.cid c) := by
  cases hh : rl.Hash with
  | none =>
    unfold decodeLinkWrap at h
    rw [hh] at h
    exact absurd h (by simp)
  | some hb =>
    unfold decodeLinkWrap at h
    rw [hh] at h
    have h2 : (match CID.decode hb with
        | none => (Except.error "Invalid Hash field found in link, expected CID"
            : Except String PBLink)
        | some c => Except.ok (PBLink.mk (some (HashVal.cid c)) rl.Name rl.Tsize false))
        = .ok pl := h
    cases hc : CID.decode hb with
    | none =>
      rw [hc] at h2
      exact absurd h2 (by simp)
    | some c =>
      rw [hc] at h2
      have h3 : PBLink.mk (some (HashVal.cid c)) rl.Name rl.Tsize false = pl :=
        Except.ok.inj h2
      exact ⟨c, by rw [← h3]⟩

theorem mapDecodeLinks_mem_ok {rls : List RawPBLink} {pls : List PBLink}
    (h : mapDecodeLinks rls = .ok pls) {rl : RawPBLink} (hmem : rl ∈ rls) :
    ∃ pl, decodeLinkWrap rl = .ok pl := by
  induction rls generalizing pls with
  | nil => cases hmem
  | cons x rest ih =>
    simp only [mapDecodeLinks, Bind.bind, Except.bind] at h
    cases hx : decodeLinkWrap x with
    | error e => rw [hx] at h; exact absurd h (by simp)
    | ok pl =>
      rw [hx] at h
      rcases List.mem_cons.mp hmem with rfl | hmem'
      · exact ⟨pl, hx⟩
      · cases hrest : mapDecodeLinks rest with
        | error e => rw [hrest] at h; exact absurd h (by simp)
        | ok pls' => exact ih hrest hmem'

theorem mapDecodeLinks_ok_forall {rls : List RawPBLink} {pls : List PBLink}
    (h : mapDecodeLinks rls = .ok pls) :
    ∀ pl ∈ pls, ∃ c, pl.Hash = some (.cid c) := by
  induction rls generalizing pls with
  | nil =>
    simp only [mapDecodeLinks, Except.ok.injEq] at h
    rw [← h]
    intro pl hpl
    cases hpl
  | cons x rest ih =>
    simp only [mapDecodeLinks, Bind.bind, Except.bind] at h
    cases hx : decodeLinkWrap x with
    | error e => rw [hx] at h; exact absurd h (by simp)
    | ok pl =>
      rw [hx] at h
      cases hrest : mapDecodeLinks rest with
      | error e => rw [hrest] at h; exact absurd h (by simp)
      | ok pls' =>
        rw [hrest] at h
        simp only [pure, Except.pure, Except.ok.injEq] at h
        rw [← h]
        intro x' hx'
        rcases List.mem_cons.mp hx' with rfl | hx''
        · exact decodeLinkWrap_ok_shape hx
        · exact ih hrest x' hx''

theorem decode_ok_links {bs : Bytes} {n : PBNode} (h : decode bs = .ok n) :
    ∀ l ∈ n.Links, ∃ c, l.Hash = some (.cid c) := by
  unfold decode at h
  cases hraw : decodeNode bs with
  | none => rw [hraw] at h; exact absurd h (by simp)
  | some raw =>
    rw [hraw] at h
    simp only [Bind.bind, Except.bind] at h
    cases hm : mapDecodeLinks raw.Links with
    | error e => rw [hm] at h; exact absurd h (by simp)
    | ok links =>
      rw [hm] at h
      simp only [Except.ok.injEq] at h
      rw [← h]
      exact mapDecodeLinks_ok_forall hm

theorem decode_error_of_badlink {bs : Bytes} {raw : RawPBNode} {rl : RawPBLink}
    (hraw : decodeNode bs = some raw) (hmem : rl ∈ raw.Links)
    (hwrap : ∀ pl, decodeLinkWrap rl ≠ .ok pl) : exceptOk (decode bs) = false := by
  cases hd : decode bs with
  | error e => simp [exceptOk]
  | ok n =>
    exfalso
    rw [decode_eq hraw] at hd
    cases hm : mapDecodeLinks raw.Links with
    | error e => rw [hm] at hd; exact absurd hd (by simp [Except.bind])
    | ok links =>
      obtain ⟨pl, hpl⟩ := mapDecodeLinks_mem_ok hm hmem
      exact hwrap pl hpl

end DagPB

namespace DagPB

/-! ## Claims settled against the wire codec -/

/-- C1 as stated is refuted here: `nodeNegA` passes `validate` (its link
carries `Tsize = -7`, which the schema allows), yet `encode` produces no
bytes — the unsigned-varint Tsize field has no encoding for a negative
number — so decoding the bytes produced by `encode` cannot return the
original node. -/
theorem c1_counterexample :
    validate nodeNegA = .ok () ∧ (encode nodeNegA).bind decode ≠ .ok nodeNegA := by
  decide

/-- C1 (amended): for every Node that passes `validate` and whose links
carry no negative `Tsize`, decoding the bytes produced by `encode` yields
the original node back, with the same `Data` presence and bytes and the
same links in order with identical Hash/Name/Tsize presence and values
(structural equality of the records). -/
theorem c1_roundtrip (node : PBNode) (hv : validate node = .ok ())
    (hts : ∀ l ∈ node.Links, 0 ≤ l.Tsize.getD 0) :
    (encode node).bind decode = .ok node := by
  obtain ⟨hex, hgood, -⟩ := (validate_ok_iff node).mp hv
  obtain ⟨bs, hbs⟩ := encodeNode_all_ok hgood hts
  rw [encode_ok_of hv hbs]
  show decode bs = .ok node
  exact decode_encode_wire hv hbs

/-- Witness for C1 on a concrete node with Data, an empty-named link and a
named link with `Tsize = 7`. -/
theorem c1_witness : (encode nodeRT).bind decode = .ok nodeRT :=
  c1_roundtrip nodeRT (by decide) (by decide)

/-- C6 as stated is refuted here: `nodeNeg5` (one link with `Tsize = -5`)
passes `validate`, but it does not round-trip: `encode` raises the
negative-Tsize error instead of producing bytes. -/
theorem c6_counterexample :
    validate nodeNeg5 = .ok () ∧ (encode nodeNeg5).bind decode ≠ .ok nodeNeg5 := by
  decide

/-- C6 (amended): a Link with `Tsize = -5` passes `validate` — the schema
imposes no non-negativity constraint — but `encode` rejects every
validate-passing node one of whose links has a negative `Tsize`, because
the wire Tsize field is an unsigned varint; so such a link does not
round-trip (round-tripping holds for non-negative or absent Tsize, per the
round-trip theorem). -/
theorem c6_tsize_sign :
    validate nodeNeg5 = .ok ()
    ∧ (∀ (node : PBNode) (l : PBLink) (q : Rat), validate node = .ok () →
        l ∈ node.Links → l.Tsize = some q → q < 0 →
        encode node = .error "Tsize cannot be negative") := by
  refine ⟨by decide, ?_⟩
  intro node l q hv hmem ht hneg
  have hlink : encodeLink (rawLinkOf l) = none := encodeLink_neg ht hneg
  have hmem' : rawLinkOf l ∈ node.Links.map rawLinkOf := List.mem_map_of_mem _ hmem
  have hlinks : encodeLinks (node.Links.map rawLinkOf) = none :=
    encodeLinks_none_of_mem hmem' hlink
  have hnode : encodeNode (rawNodeOf node) = none := by
    simp only [encodeNode, rawNodeOf, Bind.bind, Option.bind, hlinks]
  exact encode_error_neg hv hnode

/-- Witness for C6 at the concrete `Tsize = -5` node. -/
theorem c6_witness :
    validate nodeNeg5 = .ok () ∧ encode nodeNeg5 = .error "Tsize cannot be negative" := by
  refine ⟨c6_tsize_sign.1, ?_⟩
  exact c6_tsize_sign.2 nodeNeg5 (plainLink (some "m") (some (-5))) (-5)
    (by decide) (by decide) (by decide) (by decide)

/-- C8: whenever the parsed wire message contains a link whose Hash bytes
do not decode as a CID, `decode` raises an error; and every link of a
successfully decoded node carries a realized CID Hash (no
partially-populated link, no null substitute). -/
theorem c8_decode_bad_hash :
    (∀ (bs : Bytes) (raw : RawPBNode) (rl : RawPBLink) (hb : Bytes),
        decodeNode bs = some raw → rl ∈ raw.Links → rl.Hash = some hb →
        CID.decode hb = none → exceptOk (decode bs) = false)
    ∧ (∀ (bs : Bytes) (n : PBNode), decode bs = .ok n →
        ∀ l ∈ n.Links, ∃ c, l.Hash = some (.cid c)) := by
  constructor
  · intro bs raw rl hb hraw hmem hhash hcid
    refine decode_error_of_badlink hraw hmem ?_
    intro pl hpl
    unfold decodeLinkWrap at hpl
    rw [hhash] at hpl
    have h2 : (match CID.decode hb with
        | none => (Except.error "Invalid Hash field found in link, expected CID"
            : Except String PBLink)
        | some c => Except.ok (PBLink.mk (some (HashVal.cid c)) rl.Name rl.Tsize false))
        = .ok pl := hpl
    rw [hcid] at h2
    exact absurd h2 (by simp)
  · intro bs n h
    exact decode_ok_links h

/-- Witness for C8: wire bytes with a link whose Hash field is the empty
byte string (no CID decodes from it) make `decode` fail. -/
theorem c8_witness : exceptOk (decode wireBadHash) = false := by
  exact c8_decode_bad_hash.1 wireBadHash ⟨none, [⟨some [], none, none⟩]⟩
    ⟨some [], none, none⟩ [] (by decide) (by decide) rfl (by decide)

/-- C9: whenever the parsed wire message contains a link with no Hash field
at all, `decode` raises an error — although the wire schema declares the
field optional — and every link of a successfully decoded node carries a
realized CID Hash. -/
theorem c9_decode_missing_hash :
    (∀ (bs : Bytes) (raw : RawPBNode) (rl : RawPBLink),
        decodeNode bs = some raw → rl ∈ raw.Links → rl.Hash = none →
        exceptOk (decode bs) = false)
    ∧ (∀ (bs : Bytes) (n : PBNode), decode bs = .ok n →
        ∀ l ∈ n.Links, ∃ c, l.Hash = some (.cid c)) := by
  constructor
  · intro bs raw rl hraw hmem hhash
    refine decode_error_of_badlink hraw hmem ?_
    intro pl hpl
    unfold decodeLinkWrap at hpl
    rw [hhash] at hpl
    exact absurd hpl (by simp)
  · intro bs n h
    exact decode_ok_links h

/-- Witness for C9: wire bytes with a link carrying only a Name field make
`decode` fail. -/
theorem c9_witness : exceptOk (decode wireNoHash) = false := by
  exact c9_decode_missing_hash.1 wireNoHash ⟨none, [⟨none, some "a", none⟩]⟩
    ⟨none, some "a", none⟩ (by decide) (by decide) rfl

end DagPB
